import Mathlib

/-!
Verification of the `BloomFilter` repository (`bloomfilter.go`).

Items are byte sequences, modelled as `List Nat` (each entry a byte value);
the Go code converts its `string` argument to its bytes before hashing, so a
byte list is the faithful item domain.  The 64-bit unsigned arithmetic of the
index derivation is modelled with `Nat` and explicit `% 2 ^ w`; the Go `int`
counter `items` is modelled as a 64-bit two's-complement integer with explicit
wrap-around.  The `float64` arithmetic of the parameter calculator and of the
stats snapshot is modelled with exact real (respectively rational) arithmetic.
-/

/-! ### SHA-256 (the `crypto/sha256` digest the source calls) -/

/-- Truncation to a 32-bit word. -/
def w32 (x : Nat) : Nat := x % 4294967296

/-- Right rotation on 32 bits. -/
def rotr32 (n x : Nat) : Nat := w32 ((x >>> n) ||| (x <<< (32 - n)))

/-- SHA-256 `Ch` function; bitwise not on 32 bits is xor with `0xffffffff`. -/
def shaCh (x y z : Nat) : Nat := (x &&& y) ^^^ ((x ^^^ 4294967295) &&& z)

/-- SHA-256 `Maj` function. -/
def shaMaj (x y z : Nat) : Nat := (x &&& y) ^^^ (x &&& z) ^^^ (y &&& z)

/-- SHA-256 big sigma 0. -/
def bigS0 (x : Nat) : Nat := rotr32 2 x ^^^ rotr32 13 x ^^^ rotr32 22 x

/-- SHA-256 big sigma 1. -/
def bigS1 (x : Nat) : Nat := rotr32 6 x ^^^ rotr32 11 x ^^^ rotr32 25 x

/-- SHA-256 small sigma 0. -/
def smallS0 (x : Nat) : Nat := rotr32 7 x ^^^ rotr32 18 x ^^^ (x >>> 3)

/-- SHA-256 small sigma 1. -/
def smallS1 (x : Nat) : Nat := rotr32 17 x ^^^ rotr32 19 x ^^^ (x >>> 10)

/-- The 64 SHA-256 round constants. -/
def shaK : List Nat :=
  [1116352408, 1899447441, 3049323471, 3921009573, 961987163,
   1508970993, 2453635748, 2870763221, 3624381080, 310598401,
   607225278, 1426881987, 1925078388, 2162078206, 2614888103,
   3248222580, 3835390401, 4022224774, 264347078, 604807628,
   770255983, 1249150122, 1555081692, 1996064986, 2554220882,
   2821834349, 2952996808, 3210313671, 3336571891, 3584528711,
   113926993, 338241895, 666307205, 773529912, 1294757372,
   1396182291, 1695183700, 1986661051, 2177026350, 2456956037,
   2730485921, 2820302411, 3259730800, 3345764771, 3516065817,
   3600352804, 4094571909, 275423344, 430227734, 506948616,
   659060556, 883997877, 958139571, 1322822218, 1537002063,
   1747873779, 1955562222, 2024104815, 2227730452, 2361852424,
   2428436474, 2756734187, 3204031479, 3329325298]

/-- Working state of the SHA-256 compression function. -/
structure Sha256State where
  a : Nat
  b : Nat
  c : Nat
  d : Nat
  e : Nat
  f : Nat
  g : Nat
  h : Nat

/-- SHA-256 initial hash value. -/
def shaH0 : Sha256State :=
  ⟨1779033703, 3144134277, 1013904242, 2773480762,
   1359893119, 2600822924, 528734635, 1541459225⟩

/-- Big-endian 32-bit word from (up to) four bytes. -/
def be32 (bs : List Nat) : Nat := bs.foldl (fun acc b => acc * 256 + b) 0

/-- Big-endian byte decomposition of a 32-bit word. -/
def be32bytes (n : Nat) : List Nat :=
  [(n >>> 24) % 256, (n >>> 16) % 256, (n >>> 8) % 256, n % 256]

/-- Big-endian byte decomposition of a 64-bit word. -/
def be64bytes (n : Nat) : List Nat :=
  [(n >>> 56) % 256, (n >>> 48) % 256, (n >>> 40) % 256, (n >>> 32) % 256,
   (n >>> 24) % 256, (n >>> 16) % 256, (n >>> 8) % 256, n % 256]

/-- SHA-256 message padding: append `0x80`, zeros, and the 64-bit bit length,
reaching a multiple of 64 bytes. -/
def shaPad (msg : List Nat) : List Nat :=
  msg ++ [128] ++ List.replicate ((119 - msg.length % 64) % 64) 0 ++
    be64bytes (8 * msg.length)

/-- Split a padded message into its 64-byte blocks. -/
def shaBlocks (padded : List Nat) : List (List Nat) :=
  (List.range (padded.length / 64)).map (fun j => (padded.drop (64 * j)).take 64)

/-- The 64-entry message schedule of one block. -/
def msgSchedule (block : List Nat) : List Nat :=
  let w0 := (List.range 16).map (fun j => be32 ((block.drop (4 * j)).take 4))
  (List.range 48).foldl
    (fun w _ =>
      w ++ [w32 (smallS1 (w.getD (w.length - 2) 0) + w.getD (w.length - 7) 0 +
                 smallS0 (w.getD (w.length - 15) 0) + w.getD (w.length - 16) 0)])
    w0

/-- One SHA-256 round. -/
def roundStep (s : Sha256State) (kw : Nat × Nat) : Sha256State :=
  let t1 := w32 (s.h + bigS1 s.e + shaCh s.e s.f s.g + kw.1 + kw.2)
  let t2 := w32 (bigS0 s.a + shaMaj s.a s.b s.c)
  ⟨w32 (t1 + t2), s.a, s.b, s.c, w32 (s.d + t1), s.e, s.f, s.g⟩

/-- SHA-256 compression of one 64-byte block. -/
def compressBlock (H : Sha256State) (block : List Nat) : Sha256State :=
  let s := (shaK.zip (msgSchedule block)).foldl roundStep H
  ⟨w32 (H.a + s.a), w32 (H.b + s.b), w32 (H.c + s.c), w32 (H.d + s.d),
   w32 (H.e + s.e), w32 (H.f + s.f), w32 (H.g + s.g), w32 (H.h + s.h)⟩

/-- SHA-256 of a byte sequence, as its 32-byte digest. -/
def sha256 (msg : List Nat) : List Nat :=
  let s := (shaBlocks (shaPad msg)).foldl compressBlock shaH0
  be32bytes s.a ++ be32bytes s.b ++ be32bytes s.c ++ be32bytes s.d ++
  be32bytes s.e ++ be32bytes s.f ++ be32bytes s.g ++ be32bytes s.h

/-! ### The Bloom filter data model (`bloomfilter.go`) -/

/-- Two's-complement wrap-around of Go's 64-bit `int`. -/
def wrap64 (x : Int) : Int := (x + 2 ^ 63) % 2 ^ 64 - 2 ^ 63

/-- The `BloomFilter` struct: `m` and `k` are Go `uint`, `bits` is the
`[]bool` bit array, `items` is the Go `int` count of items added.  The
`sync.RWMutex` field only serializes access and carries no data; under the
lock every operation is the sequential function modelled here. -/
structure BloomFilter where
  m : Nat
  k : Nat
  bits : List Bool
  items : Int

/-- Go `binary.BigEndian.Uint64`: the big-endian 64-bit word formed by the first
eight bytes of a slice. -/
def beUint64 (bs : List Nat) : Nat :=
  (bs.take 8).foldl (fun acc b => acc * 256 + b) 0

/-- The Go method `getHashValues`: one SHA-256 digest of the item; for each
`i = 0, ..., k-1` the Go code computes
`binary.BigEndian.Uint64(append(hash[:8], byte(i)))` and reduces it modulo
`m`.  The appended byte `byte(i)` lands at offset 8 of the slice, beyond the
eight bytes `Uint64` reads, so it is modelled by appending `i % 256` and then
(inside `beUint64`) taking the first eight bytes.  (In Go the `append` also
writes `byte(i)` into `hash[8]` in place; bytes at offset 8 and beyond are
never read afterwards, so that store has no observable effect.)  Go panics on
`value % uint64(m)` when `m = 0`; theorems below therefore carry a `0 < m`
hypothesis whenever this function is involved. -/
def BloomFilter.getHashValues (bf : BloomFilter) (item : List Nat) : List Nat :=
  let hash := sha256 item
  (List.range bf.k).map (fun i =>
    let value := beUint64 (hash.take 8 ++ [i % 256])
    value % bf.m)

/-- Go `Add`: sets the bit at each of the k derived indices and increments
`items` (a Go `int`, hence with 64-bit wrap-around). -/
def BloomFilter.Add (bf : BloomFilter) (item : List Nat) : BloomFilter :=
  { bf with
    bits := (bf.getHashValues item).foldl (fun bs h => bs.set h true) bf.bits,
    items := wrap64 (bf.items + 1) }

/-- Go `Contains`: true iff the bit at every derived index is set (the Go loop
returns `false` at the first unset bit, else `true`). -/
def BloomFilter.Contains (bf : BloomFilter) (item : List Nat) : Bool :=
  (bf.getHashValues item).all (fun h => bf.bits.getD h false)

/-- The record returned by `Stats` (the Go code returns a map with exactly
these six keys). `float64` division and `math.Pow` with a natural exponent
are modelled by exact rational arithmetic. -/
structure StatsSnapshot where
  size : Nat
  hashFunctions : Nat
  itemsAdded : Int
  bitsSet : Nat
  fillRatio : Rat
  falsePositiveRate : Rat

/-- Go `Stats`: counts the set bits and reports the snapshot. -/
def BloomFilter.Stats (bf : BloomFilter) : StatsSnapshot :=
  let setBits := bf.bits.count true
  { size := bf.m
    hashFunctions := bf.k
    itemsAdded := bf.items
    bitsSet := setBits
    fillRatio := (setBits : Rat) / (bf.m : Rat)
    falsePositiveRate := ((setBits : Rat) / (bf.m : Rat)) ^ bf.k }

/-- Go `Reset`: a fresh all-false bit array of length `m`, counter zeroed. -/
def BloomFilter.Reset (bf : BloomFilter) : BloomFilter :=
  { bf with bits := List.replicate bf.m false, items := 0 }

/-- Go `m := uint(math.Ceil(-float64(expectedItems) * math.Log(p) / math.Pow(math.Log(2), 2)))`,
with `float64` modelled by exact reals and the float-to-`uint` conversion by
`Nat.ceil` (for valid inputs the value is positive and far below 2^53, where
the two agree; no theorem below relies on this value at invalid inputs,
where the Go conversion of a negative or NaN float is not defined). -/
noncomputable def derivedM (expectedItems : Int) (falsePositiveRate : ℝ) : Nat :=
  ⌈-(expectedItems : ℝ) * Real.log falsePositiveRate / Real.log 2 ^ 2⌉₊

/-- Go `k := uint(math.Ceil(math.Log(2) * float64(m) / float64(expectedItems)))`. -/
noncomputable def derivedK (expectedItems : Int) (m : Nat) : Nat :=
  ⌈Real.log 2 * (m : ℝ) / (expectedItems : ℝ)⌉₊

/-- Go `NewBloomFilter`: derives `m` and `k` and allocates the all-false bit
array.  The Go constructor performs no validation of its parameters and has
no error return. -/
noncomputable def NewBloomFilter (expectedItems : Int) (falsePositiveRate : ℝ) :
    BloomFilter :=
  let m := derivedM expectedItems falsePositiveRate
  { m := m
    k := derivedK expectedItems m
    bits := List.replicate m false
    items := 0 }

/-- Modelled from the spec: the constructor the specification describes,
which fails with an `InvalidParameters` error (here `none`) when
`expectedItems ≤ 0` or `falsePositiveRate ∉ (0,1)`, producing no structure.
The source has no such check; this definition exists only to be compared
with `NewBloomFilter`. -/
noncomputable def specCheckedNew (expectedItems : Int) (falsePositiveRate : ℝ) :
    Option BloomFilter :=
  if expectedItems ≤ 0 ∨ falsePositiveRate ≤ 0 ∨ 1 ≤ falsePositiveRate then none
  else some (NewBloomFilter expectedItems falsePositiveRate)

/-- Modelled from the spec: the two-hash index derivation of §4.3 — split the
digest into halves `h1` and `h2` (taken as-is, the spec's example) and derive
the i-th index as `(h1 + i * h2) mod m`.  This definition exists only to be
compared with the source's `getHashValues`. -/
def twoHashIndices (digest : List Nat) (k m : Nat) : List Nat :=
  let h1 := (digest.take 16).foldl (fun acc b => acc * 256 + b) 0
  let h2 := ((digest.drop 16).take 16).foldl (fun acc b => acc * 256 + b) 0
  (List.range k).map (fun i => (h1 + i * h2) % m)

/-! ### Operation sequences

`Contains` and `Stats` take the read lock and do not mutate the filter; as
state transformers they are the identity.  `Op` lists the four public
operations so that reachability claims quantify over arbitrary call
sequences. -/

/-- One public operation of the filter. -/
inductive Op where
  | add (item : List Nat)
  | containsOp (item : List Nat)
  | statsOp
  | reset
deriving DecidableEq

/-- Effect of one operation on the filter state. -/
def applyOp (bf : BloomFilter) (op : Op) : BloomFilter :=
  match op with
  | Op.add item => bf.Add item
  | Op.containsOp _ => bf
  | Op.statsOp => bf
  | Op.reset => bf.Reset

/-- Effect of a sequence of operations, first to last. -/
def applyOps (bf : BloomFilter) (ops : List Op) : BloomFilter :=
  ops.foldl applyOp bf

/-! ### Helper lemmas on the bit array -/

/-- Reading after setting one bit to true. -/
theorem getD_set_bool (l : List Bool) (j i : Nat) :
    (l.set j true).getD i false =
      (l.getD i false || (decide (i = j) && decide (i < l.length))) := by
  induction l generalizing i j with
  | nil => simp
  | cons a t ih =>
    cases j with
    | zero =>
      cases i with
      | zero => simp
      | succ n => simp
    | succ jm =>
      cases i with
      | zero => simp
      | succ n => simpa using ih jm n

/-- Reading after setting a list of bits to true. -/
theorem getD_foldl_set (hs : List Nat) (l : List Bool) (i : Nat) :
    (hs.foldl (fun bs h => bs.set h true) l).getD i false =
      (l.getD i false || (decide (i ∈ hs) && decide (i < l.length))) := by
  induction hs generalizing l with
  | nil => simp
  | cons a t ih =>
    have hlen : (l.set a true).length = l.length := by simp
    calc ((a :: t).foldl (fun bs h => bs.set h true) l).getD i false
        = (t.foldl (fun bs h => bs.set h true) (l.set a true)).getD i false := rfl
      _ = ((l.set a true).getD i false ||
            (decide (i ∈ t) && decide (i < (l.set a true).length))) := ih _
      _ = (l.getD i false || (decide (i ∈ a :: t) && decide (i < l.length))) := by
          rw [getD_set_bool, hlen]
          by_cases h1 : i = a <;> by_cases h2 : i ∈ t <;>
            by_cases h3 : i < l.length <;> cases hgd : l.getD i false <;>
            simp [h1, h2, h3, hgd, List.mem_cons]

/-- Setting bits preserves the length of the bit array. -/
theorem length_foldl_set (hs : List Nat) (l : List Bool) :
    (hs.foldl (fun bs h => bs.set h true) l).length = l.length := by
  induction hs generalizing l with
  | nil => rfl
  | cons a t ih => calc ((a :: t).foldl (fun bs h => bs.set h true) l).length
        = (t.foldl (fun bs h => bs.set h true) (l.set a true)).length := rfl
      _ = l.length := by rw [ih]; simp

/-- Two boolean lists of the same length agreeing at every default read are
equal. -/
theorem eq_of_getD_bool (l l' : List Bool) (hlen : l.length = l'.length)
    (h : ∀ i, l.getD i false = l'.getD i false) : l = l' := by
  induction l generalizing l' with
  | nil => cases l' with
    | nil => rfl
    | cons b t' => simp at hlen
  | cons a t ih =>
    cases l' with
    | nil => simp at hlen
    | cons b t' =>
      have h0 := h 0
      simp at h0
      have ht : t = t' := by
        refine ih t' (by simpa using hlen) (fun i => ?_)
        simpa using h (i + 1)
      rw [h0, ht]

/-- Every default read of the all-false array is false. -/
theorem getD_replicate_false (n i : Nat) :
    (List.replicate n false).getD i false = false := by
  induction n generalizing i with
  | zero => simp
  | succ k ih =>
    cases i with
    | zero => simp
    | succ j => simp [ih j]

/-- The all-false array has no set bit. -/
theorem count_true_replicate (n : Nat) :
    (List.replicate n false).count true = 0 := by
  induction n with
  | zero => rfl
  | succ k ih => simp [List.replicate_succ, List.count_cons, ih]

/-- Go `int` arithmetic agrees with unbounded arithmetic inside the 64-bit
range. -/
theorem wrap64_eq (x : Int) (h1 : -(2 ^ 63) ≤ x) (h2 : x < 2 ^ 63) :
    wrap64 x = x := by
  have hmod : (x + 2 ^ 63) % 2 ^ 64 = x + 2 ^ 63 :=
    Int.emod_eq_of_lt (by omega) (by omega)
  unfold wrap64
  omega

/-! ### Helper lemmas on the filter operations -/

theorem Add_m (bf : BloomFilter) (x : List Nat) : (bf.Add x).m = bf.m := rfl

theorem Add_k (bf : BloomFilter) (x : List Nat) : (bf.Add x).k = bf.k := rfl

theorem Add_length (bf : BloomFilter) (x : List Nat) :
    (bf.Add x).bits.length = bf.bits.length :=
  length_foldl_set _ _

/-- The derived indices depend only on the parameters `m` and `k`. -/
theorem getHashValues_eq_of (bf bf' : BloomFilter) (hm : bf.m = bf'.m)
    (hk : bf.k = bf'.k) (x : List Nat) :
    bf.getHashValues x = bf'.getHashValues x := by
  simp [BloomFilter.getHashValues, hm, hk]

/-- Every derived index is below `m`. -/
theorem getHashValues_mem_lt (bf : BloomFilter) (x : List Nat) (hm : 0 < bf.m) :
    ∀ h ∈ bf.getHashValues x, h < bf.m := by
  intro h hh
  simp only [BloomFilter.getHashValues, List.mem_map, List.mem_range] at hh
  obtain ⟨i, _, rfl⟩ := hh
  exact Nat.mod_lt _ hm

/-- A set bit stays set across `Add`. -/
theorem Add_mono (bf : BloomFilter) (x : List Nat) (i : Nat)
    (h : bf.bits.getD i false = true) :
    (bf.Add x).bits.getD i false = true := by
  show ((bf.getHashValues x).foldl (fun bs h => bs.set h true) bf.bits).getD i false = true
  rw [getD_foldl_set, h]
  simp

/-- After `Add x`, the bit at every index derived for `x` is set. -/
theorem Add_sets (bf : BloomFilter) (x : List Nat) (hm : 0 < bf.m)
    (hlen : bf.bits.length = bf.m) :
    ∀ h ∈ bf.getHashValues x, (bf.Add x).bits.getD h false = true := by
  intro h hh
  show ((bf.getHashValues x).foldl (fun bs h => bs.set h true) bf.bits).getD h false = true
  rw [getD_foldl_set]
  have hlt : h < bf.bits.length := hlen ▸ getHashValues_mem_lt bf x hm h hh
  simp [hh, hlt]

theorem applyOp_m (bf : BloomFilter) (op : Op) : (applyOp bf op).m = bf.m := by
  cases op <;> rfl

theorem applyOp_k (bf : BloomFilter) (op : Op) : (applyOp bf op).k = bf.k := by
  cases op <;> rfl

theorem applyOps_m (bf : BloomFilter) (ops : List Op) :
    (applyOps bf ops).m = bf.m := by
  induction ops generalizing bf with
  | nil => rfl
  | cons op t ih =>
    calc (applyOps (applyOp bf op) t).m = (applyOp bf op).m := ih _
      _ = bf.m := applyOp_m bf op

theorem applyOps_k (bf : BloomFilter) (ops : List Op) :
    (applyOps bf ops).k = bf.k := by
  induction ops generalizing bf with
  | nil => rfl
  | cons op t ih =>
    calc (applyOps (applyOp bf op) t).k = (applyOp bf op).k := ih _
      _ = bf.k := applyOp_k bf op

/-- Every operation keeps the bit array at length `m`. -/
theorem applyOp_length (bf : BloomFilter) (op : Op)
    (hlen : bf.bits.length = bf.m) : (applyOp bf op).bits.length = bf.m := by
  cases op with
  | add x => calc (bf.Add x).bits.length = bf.bits.length := Add_length bf x
      _ = bf.m := hlen
  | containsOp x => exact hlen
  | statsOp => exact hlen
  | reset => simp [applyOp, BloomFilter.Reset]

/-- Every operation sequence keeps the bit array at length `m`. -/
theorem applyOps_length (bf : BloomFilter) (ops : List Op)
    (hlen : bf.bits.length = bf.m) : (applyOps bf ops).bits.length = bf.m := by
  induction ops generalizing bf with
  | nil => exact hlen
  | cons op t ih =>
    have h1 : (applyOp bf op).bits.length = (applyOp bf op).m := by
      rw [applyOp_m]; exact applyOp_length bf op hlen
    calc (applyOps bf (op :: t)).bits.length
        = (applyOps (applyOp bf op) t).bits.length := rfl
      _ = (applyOp bf op).m := ih _ h1
      _ = bf.m := applyOp_m bf op

/-- The digest always has 32 bytes. -/
theorem sha256_length (msg : List Nat) : (sha256 msg).length = 32 := by
  simp [sha256, be32bytes]

/-- Appending a byte beyond the first eight does not change the 64-bit read. -/
theorem beUint64_append_byte (l : List Nat) (b : Nat) (h : 8 ≤ l.length) :
    beUint64 (l ++ [b]) = beUint64 l := by
  unfold beUint64
  rw [List.take_append_eq_append_take]
  have : 8 - l.length = 0 := by omega
  rw [this]
  simp

/-- Each of the k derived indices is the first eight digest bytes read
big-endian, reduced modulo `m`: the appended slot byte is ignored. -/
theorem getHashValues_getD (bf : BloomFilter) (x : List Nat) (i : Nat)
    (hi : i < bf.k) :
    (bf.getHashValues x).getD i 0 = beUint64 ((sha256 x).take 8) % bf.m := by
  have hlen : i < ((List.range bf.k).map (fun i =>
      beUint64 ((sha256 x).take 8 ++ [i % 256]) % bf.m)).length := by simpa using hi
  have h8 : 8 ≤ ((sha256 x).take 8).length := by
    simp [List.length_take, sha256_length]
  calc (bf.getHashValues x).getD i 0
      = beUint64 ((sha256 x).take 8 ++ [i % 256]) % bf.m := by
        show ((List.range bf.k).map (fun i =>
          beUint64 ((sha256 x).take 8 ++ [i % 256]) % bf.m)).getD i 0 = _
        rw [List.getD_eq_getElem _ _ hlen]
        simp
    _ = beUint64 ((sha256 x).take 8) % bf.m := by
        rw [beUint64_append_byte _ _ h8]

/-- Characterization of `Contains` as a statement about every derived index. -/
theorem Contains_eq_true_iff (bf : BloomFilter) (x : List Nat) :
    bf.Contains x = true ↔
      ∀ h ∈ bf.getHashValues x, bf.bits.getD h false = true := by
  simp [BloomFilter.Contains, List.all_eq_true]

/-- Along any reset-free operation sequence, the bits set for `x` stay set
and the shape invariants persist. -/
theorem ops_preserve (x : List Nat) (ops : List Op) :
    ∀ bf : BloomFilter, 0 < bf.m → bf.bits.length = bf.m →
      (∀ h ∈ bf.getHashValues x, bf.bits.getD h false = true) →
      Op.reset ∉ ops →
      ∀ h ∈ (applyOps bf ops).getHashValues x,
        (applyOps bf ops).bits.getD h false = true := by
  induction ops with
  | nil => intro bf _ _ hset _; exact hset
  | cons op t ih =>
    intro bf hm hlen hset hnr
    have hop : Op.reset ≠ op := fun h => hnr (h ▸ List.mem_cons_self _ _)
    have hnt : Op.reset ∉ t := fun h => hnr (List.mem_cons_of_mem _ h)
    show ∀ h ∈ (applyOps (applyOp bf op) t).getHashValues x,
      (applyOps (applyOp bf op) t).bits.getD h false = true
    refine ih (applyOp bf op) ?_ ?_ ?_ hnt
    · rw [applyOp_m]; exact hm
    · rw [applyOp_m]; exact applyOp_length bf op hlen
    · have hsame : (applyOp bf op).getHashValues x = bf.getHashValues x :=
        getHashValues_eq_of _ _ (applyOp_m bf op) (applyOp_k bf op) x
      rw [hsame]
      intro h hh
      cases op with
      | add y => exact Add_mono bf y h (hset h hh)
      | containsOp y => exact hset h hh
      | statsOp => exact hset h hh
      | reset => exact absurd rfl hop

/-! ### Claims -/

/-- C1.  No false negatives: if `Add x` has completed and no `Reset` occurs
between that `Add` and a subsequent `Contains x` (any other `Add`, `Contains`
or `Stats` calls may intervene), then `Contains x` returns true.  The
hypotheses state the shape invariant of every state a validly constructed
filter can reach: a positive `m` and a bit array of length `m`. -/
theorem noFalseNegatives (bf : BloomFilter) (x : List Nat) (ops : List Op)
    (hm : 0 < bf.m) (hlen : bf.bits.length = bf.m) (hnr : Op.reset ∉ ops) :
    (applyOps (bf.Add x) ops).Contains x = true := by
  rw [Contains_eq_true_iff]
  refine ops_preserve x ops (bf.Add x) ?_ ?_ ?_ hnr
  · rw [Add_m]; exact hm
  · rw [Add_m, Add_length]; exact hlen
  · have hsame : (bf.Add x).getHashValues x = bf.getHashValues x :=
      getHashValues_eq_of _ _ (Add_m bf x) (Add_k bf x) x
    rw [hsame]
    exact Add_sets bf x hm hlen

/-- Witness for C1 at a concrete filter and item. -/
theorem noFalseNegatives_witness :
    (applyOps ((⟨11, 3, List.replicate 11 false, 0⟩ : BloomFilter).Add [97])
      [Op.add [98], Op.statsOp]).Contains [97] = true :=
  noFalseNegatives ⟨11, 3, List.replicate 11 false, 0⟩ [97]
    [Op.add [98], Op.statsOp] (by decide) (by decide) (by decide)

/-- C3.  All k derived indices of one item coincide: each equals the 64-bit
big-endian read of the first eight digest bytes, reduced modulo `m` — the
appended slot byte lies outside the eight bytes the read uses. -/
theorem indicesAllEqual (bf : BloomFilter) (x : List Nat) (i j : Nat)
    (hi : i < bf.k) (hj : j < bf.k) :
    (bf.getHashValues x).getD i 0 = beUint64 ((sha256 x).take 8) % bf.m ∧
    (bf.getHashValues x).getD i 0 = (bf.getHashValues x).getD j 0 := by
  refine ⟨getHashValues_getD bf x i hi, ?_⟩
  rw [getHashValues_getD bf x i hi, getHashValues_getD bf x j hj]

set_option maxRecDepth 4000 in
/-- Witness for C3 at a concrete filter and item. -/
theorem indicesAllEqual_witness :
    ((⟨11, 3, List.replicate 11 false, 0⟩ : BloomFilter).getHashValues [97]).getD 0 0 =
        beUint64 ((sha256 [97]).take 8) % 11 ∧
    ((⟨11, 3, List.replicate 11 false, 0⟩ : BloomFilter).getHashValues [97]).getD 0 0 =
      ((⟨11, 3, List.replicate 11 false, 0⟩ : BloomFilter).getHashValues [97]).getD 2 0 := by
  exact indicesAllEqual ⟨11, 3, List.replicate 11 false, 0⟩ [97] 0 2 (by decide) (by decide)

/-- Setting the same list of bits a second time changes nothing. -/
theorem foldl_set_idem (hs : List Nat) (l : List Bool) :
    hs.foldl (fun bs h => bs.set h true) (hs.foldl (fun bs h => bs.set h true) l) =
      hs.foldl (fun bs h => bs.set h true) l := by
  apply eq_of_getD_bool
  · rw [length_foldl_set, length_foldl_set]
  · intro i
    rw [getD_foldl_set, length_foldl_set, getD_foldl_set]
    by_cases h1 : i ∈ hs <;> by_cases h2 : i < l.length <;>
      cases hgd : l.getD i false <;> simp [h1, h2, hgd]

/-- C5.  Reset clears all state: immediately after `Reset` (no item added
since), `Contains` returns false for every item, and the stats snapshot
reports zero items added and zero set bits.  The hypotheses `0 < m`, `0 < k`
hold for every validly constructed filter (and `Contains` would panic in Go
for `m = 0`). -/
theorem resetClears (bf : BloomFilter) (x : List Nat) (_hm : 0 < bf.m)
    (hk : 0 < bf.k) :
    bf.Reset.Contains x = false ∧ bf.Reset.Stats.itemsAdded = 0 ∧
      bf.Reset.Stats.bitsSet = 0 := by
  refine ⟨?_, rfl, ?_⟩
  · have hlen : (bf.Reset.getHashValues x).length = bf.k := by
      simp [BloomFilter.getHashValues, BloomFilter.Reset]
    have hne : bf.Reset.getHashValues x ≠ [] := by
      intro h
      rw [h] at hlen
      simp at hlen
      omega
    obtain ⟨h0, hmem⟩ := List.exists_mem_of_ne_nil _ hne
    apply Bool.eq_false_iff.mpr
    intro hc
    have hread := (Contains_eq_true_iff _ _).mp hc h0 hmem
    rw [show bf.Reset.bits = List.replicate bf.m false from rfl,
      getD_replicate_false] at hread
    exact absurd hread (by simp)
  · show (List.replicate bf.m false).count true = 0
    exact count_true_replicate bf.m

set_option maxRecDepth 4000 in
/-- Witness for C5 at a concrete filter and item. -/
theorem resetClears_witness :
    (⟨3, 2, [true, true, false], 5⟩ : BloomFilter).Reset.Contains [97] = false ∧
    (⟨3, 2, [true, true, false], 5⟩ : BloomFilter).Reset.Stats.itemsAdded = 0 ∧
    (⟨3, 2, [true, true, false], 5⟩ : BloomFilter).Reset.Stats.bitsSet = 0 := by
  exact resetClears ⟨3, 2, [true, true, false], 5⟩ [97] (by decide) (by decide)

/-- C6, counterexample.  At the (representable) state whose counter holds
the largest Go `int`, `Add` does not increment `itemsAdded` by one: the Go
`int` wraps around to the most negative value. -/
theorem addTwice_cex :
    ¬ ((BloomFilter.Add ⟨1, 1, [false], 9223372036854775807⟩ [0]).items =
        9223372036854775807 + 1) := by decide

/-- C6, amended.  Adding the same item twice leaves the number of set bits
after the second call equal to the number after the first call, in every
filter state; `itemsAdded` increments by 1 on each of the two calls provided
the counter does not overflow the 64-bit `int` range. -/
theorem addTwice (bf : BloomFilter) (x : List Nat) (_hm : 0 < bf.m)
    (hlo : -(2 ^ 63) ≤ bf.items) (hhi : bf.items + 2 < 2 ^ 63) :
    ((bf.Add x).Add x).Stats.bitsSet = (bf.Add x).Stats.bitsSet ∧
    (bf.Add x).items = bf.items + 1 ∧ ((bf.Add x).Add x).items = bf.items + 2 := by
  have h1 : (bf.Add x).items = bf.items + 1 := wrap64_eq _ (by omega) (by omega)
  refine ⟨?_, h1, ?_⟩
  · have hsame : (bf.Add x).getHashValues x = bf.getHashValues x :=
      getHashValues_eq_of _ _ (Add_m bf x) (Add_k bf x) x
    have hbits : ((bf.Add x).Add x).bits = (bf.Add x).bits := by
      show ((bf.Add x).getHashValues x).foldl (fun bs h => bs.set h true)
          (bf.Add x).bits = (bf.Add x).bits
      rw [hsame]
      exact foldl_set_idem (bf.getHashValues x) bf.bits
    show ((bf.Add x).Add x).bits.count true = (bf.Add x).bits.count true
    rw [hbits]
  · show wrap64 ((bf.Add x).items + 1) = bf.items + 2
    rw [h1, wrap64_eq _ (by omega) (by omega)]
    omega

set_option maxRecDepth 4000 in
/-- Witness for the amended C6 at a concrete filter and item. -/
theorem addTwice_witness :
    (((⟨2, 3, [false, false], 4⟩ : BloomFilter).Add [98]).Add [98]).Stats.bitsSet =
        ((⟨2, 3, [false, false], 4⟩ : BloomFilter).Add [98]).Stats.bitsSet ∧
    ((⟨2, 3, [false, false], 4⟩ : BloomFilter).Add [98]).items = 4 + 1 ∧
    (((⟨2, 3, [false, false], 4⟩ : BloomFilter).Add [98]).Add [98]).items = 4 + 2 := by
  exact addTwice ⟨2, 3, [false, false], 4⟩ [98] (by decide) (by decide) (by decide)

/-- C7, counterexample.  One `Add` from the (representable) state whose
counter holds the largest Go `int` does not produce `itemsAdded` equal to its
prior value plus one: the `int` wraps around. -/
theorem monotonicCounter_cex :
    ¬ ((applyOps ⟨1, 1, [true], 9223372036854775807⟩ [Op.add [1]]).items =
        9223372036854775807 + 1) := by decide

/-- C7, amended.  After n calls to `Add` with no intervening `Reset`,
`itemsAdded` equals its value before those calls plus n, duplicates included,
provided the counter stays within the 64-bit `int` range. -/
theorem monotonicCounter (bf : BloomFilter) (xs : List (List Nat))
    (_hm : 0 < bf.m) (hlo : -(2 ^ 63) ≤ bf.items)
    (hhi : bf.items + xs.length < 2 ^ 63) :
    (applyOps bf (xs.map Op.add)).items = bf.items + xs.length := by
  induction xs generalizing bf with
  | nil => simp [applyOps]
  | cons x t ih =>
    simp only [List.length_cons] at hhi
    push_cast at hhi
    have h1 : (bf.Add x).items = bf.items + 1 := wrap64_eq _ (by omega) (by omega)
    show (applyOps (bf.Add x) (t.map Op.add)).items = bf.items + ↑(x :: t).length
    rw [ih (bf.Add x) (by rw [Add_m]; exact _hm) (by omega) (by rw [h1]; omega)]
    rw [h1]
    simp only [List.length_cons]
    push_cast
    omega

set_option maxRecDepth 4000 in
/-- Witness for the amended C7 at a concrete filter and two adds. -/
theorem monotonicCounter_witness :
    (applyOps ⟨1, 1, [false], 0⟩ ([[5], [5]].map Op.add)).items = 2 := by
  have h := monotonicCounter ⟨1, 1, [false], 0⟩ [[5], [5]]
    (by decide) (by decide) (by decide)
  simpa using h

/-- C4, counterexample.  At the invalid input `expectedItems = 0`,
`falsePositiveRate = 1/2`, the specified checked constructor fails, but the
source constructor performs no validation and returns a structure (here with
`m = 0`, an empty bit array and a zero counter): construction does not fail
and a structure is produced. -/
theorem constructionValidation_cex :
    specCheckedNew 0 (1 / 2) = none ∧
    (NewBloomFilter 0 (1 / 2)).m = 0 ∧
    (NewBloomFilter 0 (1 / 2)).bits = [] ∧
    (NewBloomFilter 0 (1 / 2)).items = 0 := by
  have hm : derivedM 0 (1 / 2) = 0 := by
    simp [derivedM]
  refine ⟨?_, hm, ?_, rfl⟩
  · simp [specCheckedNew]
  · show List.replicate (derivedM 0 (1 / 2)) false = []
    rw [hm]
    rfl

/-- C4, amended.  Construction never fails and performs no validation: for
every input, valid or not, `NewBloomFilter` returns a structure whose bit
array is all-false of length `m` and whose counter is zero; no
`InvalidParameters` error exists in the code. -/
theorem constructionTotal (n : Int) (p : ℝ) :
    (NewBloomFilter n p).m = derivedM n p ∧
    (NewBloomFilter n p).k = derivedK n (derivedM n p) ∧
    (NewBloomFilter n p).bits = List.replicate (NewBloomFilter n p).m false ∧
    (NewBloomFilter n p).items = 0 :=
  ⟨rfl, rfl, rfl, rfl⟩

/-- C9.  State-shape invariant: the constructor produces a bit array of
length `m`; every operation sequence preserves both the length and the value
of `m`; and no operation other than `Reset` ever clears a set bit. -/
theorem stateShape :
    (∀ (n : Int) (p : ℝ),
      (NewBloomFilter n p).bits.length = (NewBloomFilter n p).m) ∧
    (∀ (bf : BloomFilter) (ops : List Op), bf.bits.length = bf.m →
      (applyOps bf ops).bits.length = bf.m ∧ (applyOps bf ops).m = bf.m) ∧
    (∀ (bf : BloomFilter) (op : Op) (i : Nat), op ≠ Op.reset → 0 < bf.m →
      bf.bits.getD i false = true → (applyOp bf op).bits.getD i false = true) := by
  refine ⟨?_, ?_, ?_⟩
  · intro n p
    show (List.replicate (derivedM n p) false).length = derivedM n p
    simp
  · intro bf ops hlen
    exact ⟨applyOps_length bf ops hlen, applyOps_m bf ops⟩
  · intro bf op i hne _hm hbit
    cases op with
    | add x => exact Add_mono bf x i hbit
    | containsOp x => exact hbit
    | statsOp => exact hbit
    | reset => exact absurd rfl hne

set_option maxRecDepth 4000 in
/-- Witness for C9 at a concrete filter, operation sequence and bit. -/
theorem stateShape_witness :
    ((applyOps ⟨2, 1, [false, false], 0⟩ [Op.add [3], Op.reset, Op.statsOp]).bits.length = 2 ∧
      (applyOps ⟨2, 1, [false, false], 0⟩ [Op.add [3], Op.reset, Op.statsOp]).m = 2) ∧
    (applyOp ⟨1, 1, [true], 0⟩ (Op.add [2])).bits.getD 0 false = true :=
  ⟨stateShape.2.1 ⟨2, 1, [false, false], 0⟩ [Op.add [3], Op.reset, Op.statsOp] (by decide),
   stateShape.2.2 ⟨1, 1, [true], 0⟩ (Op.add [2]) 0 (by decide) (by decide) (by decide)⟩

/-- C10.  In every state reachable by any operation sequence on a filter
constructed with valid parameters, the snapshot's fill ratio and its
estimated false-positive rate (the fill ratio raised to the power k) lie in
the interval from 0 to 1. -/
theorem statsBounds (n : Int) (p : ℝ) (ops : List Op)
    (hn : 0 < n) (hp0 : 0 < p) (hp1 : p < 1) :
    0 ≤ (applyOps (NewBloomFilter n p) ops).Stats.fillRatio ∧
    (applyOps (NewBloomFilter n p) ops).Stats.fillRatio ≤ 1 ∧
    0 ≤ (applyOps (NewBloomFilter n p) ops).Stats.falsePositiveRate ∧
    (applyOps (NewBloomFilter n p) ops).Stats.falsePositiveRate ≤ 1 := by
  have hm0 : 0 < derivedM n p := by
    apply Nat.ceil_pos.mpr
    apply div_pos
    · have hnR : (0 : ℝ) < (n : ℝ) := by exact_mod_cast hn
      have hlog : Real.log p < 0 := Real.log_neg hp0 hp1
      nlinarith
    · have h2 : 0 < Real.log 2 := Real.log_pos (by norm_num)
      positivity
  have hmEq : (applyOps (NewBloomFilter n p) ops).m = derivedM n p :=
    applyOps_m _ _
  have h0 : (NewBloomFilter n p).bits.length = (NewBloomFilter n p).m := by
    show (List.replicate (derivedM n p) false).length = derivedM n p
    simp
  have hlen : (applyOps (NewBloomFilter n p) ops).bits.length =
      (applyOps (NewBloomFilter n p) ops).m := by
    rw [hmEq]
    exact applyOps_length _ _ h0
  set bf := applyOps (NewBloomFilter n p) ops
  have hcount : bf.bits.count true ≤ bf.m :=
    le_trans (List.count_le_length _ _) (le_of_eq hlen)
  have hmQ : (0 : ℚ) < (bf.m : ℚ) := by
    have : 0 < bf.m := hmEq ▸ hm0
    exact_mod_cast this
  have hfr : bf.Stats.fillRatio = ((bf.bits.count true : ℚ)) / (bf.m : ℚ) := rfl
  have hfp : bf.Stats.falsePositiveRate =
      (((bf.bits.count true : ℚ)) / (bf.m : ℚ)) ^ bf.k := rfl
  have hfr0 : 0 ≤ ((bf.bits.count true : ℚ)) / (bf.m : ℚ) :=
    div_nonneg (by positivity) (le_of_lt hmQ)
  have hfr1 : ((bf.bits.count true : ℚ)) / (bf.m : ℚ) ≤ 1 :=
    (div_le_one hmQ).mpr (by exact_mod_cast hcount)
  refine ⟨?_, ?_, ?_, ?_⟩
  · rw [hfr]; exact hfr0
  · rw [hfr]; exact hfr1
  · rw [hfp]; exact pow_nonneg hfr0 _
  · rw [hfp]; exact pow_le_one₀ hfr0 hfr1

/-- Witness for C10 at a concrete valid construction and empty sequence. -/
theorem statsBounds_witness :
    0 ≤ (applyOps (NewBloomFilter 2 (1 / 2)) []).Stats.fillRatio ∧
    (applyOps (NewBloomFilter 2 (1 / 2)) []).Stats.fillRatio ≤ 1 ∧
    0 ≤ (applyOps (NewBloomFilter 2 (1 / 2)) []).Stats.falsePositiveRate ∧
    (applyOps (NewBloomFilter 2 (1 / 2)) []).Stats.falsePositiveRate ≤ 1 :=
  statsBounds 2 (1 / 2) [] (by decide) one_half_pos one_half_lt_one

set_option maxRecDepth 8000 in
/-- C2 fails on the code: at the spec's own concrete scenario
(`m = 9586`, `k = 7`, item "alpha", bytes `[97, 108, 112, 104, 97]`) the
implemented derivation yields the same index seven times (bytes 0 to 7 of the
digest read big-endian, modulo m, the appended slot byte being outside the
read window), whereas the spec's two-hash combination with `h1`, `h2` the two
digest halves yields seven pairwise distinct values; in particular the first
two indices coincide in the code and differ under the spec. -/
theorem hashDerivation_codeEval :
    BloomFilter.getHashValues ⟨9586, 7, List.replicate 9586 false, 0⟩
        [97, 108, 112, 104, 97] = List.replicate 7 3890 ∧
    twoHashIndices (sha256 [97, 108, 112, 104, 97]) 7 9586 =
        [3938, 3504, 3070, 2636, 2202, 1768, 1334] ∧
    twoHashIndices (sha256 [97, 108, 112, 104, 97]) 7 9586 ≠
      BloomFilter.getHashValues ⟨9586, 7, List.replicate 9586 false, 0⟩
        [97, 108, 112, 104, 97] := by
  refine ⟨by decide, by decide, by decide⟩

/-- Taylor bounds for `log (5/4)`, to ten decimal places. -/
theorem log54_bounds :
    (12283807 / 55050240 : ℝ) ≤ Real.log (5 / 4) ∧
    Real.log (5 / 4) ≤ (4094789 / 18350080 : ℝ) := by
  have h := Real.abs_log_sub_add_sum_range_le
    (x := (-1 : ℝ)/4) (by rw [abs_lt]; constructor <;> norm_num) 8
  have h54 : (1 : ℝ) - (-1 : ℝ)/4 = 5/4 := by norm_num
  rw [h54] at h
  have hs : (∑ i ∈ Finset.range 8, ((-1 : ℝ)/4) ^ (i+1) / (i+1)) =
      -(12284087 / 55050240 : ℝ) := by
    simp [Finset.sum_range_succ]
    norm_num
  rw [hs] at h
  have habs : |(-1 : ℝ)/4| = 1/4 := by norm_num
  rw [habs] at h
  have h2 := abs_le.mp h
  norm_num at h2
  exact ⟨by linarith [h2.1], by linarith [h2.2]⟩

/-- Decomposition of `log 100` through powers of 2 and 5/4. -/
theorem log100_eq : Real.log 100 = 6 * Real.log 2 + 2 * Real.log (5 / 4) := by
  have h : (100 : ℝ) = 2 ^ 6 * (5 / 4) ^ 2 := by norm_num
  rw [h, Real.log_mul (by norm_num) (by norm_num), Real.log_pow, Real.log_pow]
  push_cast
  ring

/-- The derived bit-array size at the spec's concrete scenario. -/
theorem derivedM_1000 : derivedM 1000 (1 / 100) = 9586 := by
  unfold derivedM
  have hL2pos : 0 < Real.log 2 := Real.log_pos (by norm_num)
  have hcast : -((1000 : ℤ) : ℝ) * Real.log ((1 : ℝ)/100) = 1000 * Real.log 100 := by
    rw [one_div, Real.log_inv]
    push_cast
    ring
  rw [hcast, Nat.ceil_eq_iff (by norm_num)]
  have hsq_pos : 0 < Real.log 2 ^ 2 := by positivity
  constructor
  · have hc : ((9586 - 1 : ℕ) : ℝ) = 9585 := by norm_num
    rw [hc, lt_div_iff₀ hsq_pos, log100_eq]
    nlinarith [log54_bounds.1, Real.log_two_gt_d9, Real.log_two_lt_d9, hL2pos]
  · rw [div_le_iff₀ hsq_pos, log100_eq]
    nlinarith [log54_bounds.2, Real.log_two_gt_d9, Real.log_two_lt_d9, hL2pos]

/-- The derived hash count at the spec's concrete scenario. -/
theorem derivedK_1000 : derivedK 1000 9586 = 7 := by
  unfold derivedK
  rw [Nat.ceil_eq_iff (by norm_num)]
  have h1000 : (0 : ℝ) < ((1000 : ℤ) : ℝ) := by norm_num
  constructor
  · have hc : ((7 - 1 : ℕ) : ℝ) = 6 := by norm_num
    rw [hc, lt_div_iff₀ h1000]
    have := Real.log_two_gt_d9
    push_cast
    nlinarith
  · rw [div_le_iff₀ h1000]
    have := Real.log_two_lt_d9
    push_cast
    nlinarith

/-- C8.  Parameter derivation: construction computes
`m = ceil(-expectedItems * ln(falsePositiveRate) / (ln 2)^2)` and
`k = ceil(ln 2 * m / expectedItems)`; at `expectedItems = 1000`,
`falsePositiveRate = 1/100` this gives exactly `m = 9586` and `k = 7`
(the `float64` arithmetic is modelled by exact reals; the margin to the
rounding boundaries is far larger than any double-rounding error). -/
theorem parameterDerivation :
    (∀ (n : Int) (p : ℝ),
      (NewBloomFilter n p).m = ⌈-(n : ℝ) * Real.log p / Real.log 2 ^ 2⌉₊ ∧
      (NewBloomFilter n p).k =
        ⌈Real.log 2 * ((NewBloomFilter n p).m : ℝ) / (n : ℝ)⌉₊) ∧
    (NewBloomFilter 1000 (1 / 100)).m = 9586 ∧
    (NewBloomFilter 1000 (1 / 100)).k = 7 := by
  refine ⟨fun n p => ⟨rfl, rfl⟩, ?_, ?_⟩
  · show derivedM 1000 (1 / 100) = 9586
    exact derivedM_1000
  · show derivedK 1000 (derivedM 1000 (1 / 100)) = 7
    rw [derivedM_1000]
    exact derivedK_1000
